import Mathlib

/-!
Shallow embedding of the jobqueue-go repository.

The Go repository stores jobs in a priority store (`queue/queue.go`) with
three pending lanes and three dead-letter lanes keyed by priority, processes
them with workers (`worker/worker.go`) that retry failures with exponential
backoff, and promotes delayed jobs with a scheduler built on Go's
`container/heap` (the `scheduler` package).

Conventions of the embedding:
* Go slices become `List`; `map[Priority][]Job` (always initialised with the
  three keys `High`, `Medium`, `Low`) becomes three list-valued fields, with
  a lookup helper that returns `[]` for any other key, matching Go map reads
  of absent keys.
* Go `int` becomes `Int`; `time.Time` and `time.Duration` become `Nat`
  (whole seconds suffice: every duration in the repository is a whole number
  of seconds, and `math.Pow(2, k)` is exact for the exponents that arise).
* Methods that mutate the receiver become functions returning the new value;
  `GetJob`/`GetDeadLetterJob`, which return `(Job, error)`, become functions
  returning `Option Job × JobQueue` where `none` stands for the
  `"no job found"` error and the returned store is the (unchanged) receiver.
* The mutex fields only serialise the critical sections; the embedding is
  sequential, so they have no counterpart.
-/

namespace JobQueueGo

/-- Go type `utils.Priority` (an `int`). -/
abbrev Priority := Int

/-- `utils.High Priority = 1` -/
def High : Priority := 1

/-- `utils.Medium Priority = 2` -/
def Medium : Priority := 2

/-- `utils.Low Priority = 3` -/
def Low : Priority := 3

/-- Go struct `utils.Job`.  The Go field `Type` is rendered `jobType`
(`type` is not a usable field name in Lean); `Payload` is a
`map[string]string`, rendered as an association list. -/
structure Job where
  id : String
  jobType : String
  payload : List (String × String)
  priority : Priority
  retryCount : Int
  maxRetries : Int
  createdAt : Nat
deriving Inhabited

/-- Go struct `queue.JobQueue`: the maps `queue` and `deadLetterQueue`,
each initialised with exactly the keys `High`, `Medium`, `Low`, are split
into their three lanes.  The mutex is omitted (sequential embedding). -/
structure JobQueue where
  queueHigh : List Job
  queueMedium : List Job
  queueLow : List Job
  deadLetterHigh : List Job
  deadLetterMedium : List Job
  deadLetterLow : List Job

/-- `queue.NewQueue`: all six lanes start empty. -/
def NewQueue : JobQueue :=
  { queueHigh := [], queueMedium := [], queueLow := []
    deadLetterHigh := [], deadLetterMedium := [], deadLetterLow := [] }

/-- Reading `q.queue[p]`: an absent key (any `p` outside the three
constants) yields the empty (nil) slice, as in Go. -/
def JobQueue.lane (q : JobQueue) (p : Priority) : List Job :=
  if p = High then q.queueHigh
  else if p = Medium then q.queueMedium
  else if p = Low then q.queueLow
  else []

/-- Reading `q.deadLetterQueue[p]`, with the same convention. -/
def JobQueue.deadLane (q : JobQueue) (p : Priority) : List Job :=
  if p = High then q.deadLetterHigh
  else if p = Medium then q.deadLetterMedium
  else if p = Low then q.deadLetterLow
  else []

/-- `(*JobQueue).AddJob`: a `switch` on `job.Priority` appends the job to
the matching pending lane; a priority outside the three cases falls through
the switch and the store is returned unchanged. -/
def JobQueue.AddJob (q : JobQueue) (job : Job) : JobQueue :=
  if job.priority = High then { q with queueHigh := q.queueHigh ++ [job] }
  else if job.priority = Medium then { q with queueMedium := q.queueMedium ++ [job] }
  else if job.priority = Low then { q with queueLow := q.queueLow ++ [job] }
  else q

/-- `(*JobQueue).GetJob`: checks the High, then Medium, then Low pending
lane; the first non-empty lane loses its head, which is returned.  When all
three are empty the store is untouched and the `"no job found"` error
(rendered `none`) is returned. -/
def JobQueue.GetJob (q : JobQueue) : Option Job × JobQueue :=
  match q.queueHigh with
  | job :: rest => (some job, { q with queueHigh := rest })
  | [] =>
    match q.queueMedium with
    | job :: rest => (some job, { q with queueMedium := rest })
    | [] =>
      match q.queueLow with
      | job :: rest => (some job, { q with queueLow := rest })
      | [] => (none, q)

/-- `utils.RemoveJob`: drops the first element whose `ID` equals `job.ID`,
keeping the rest in order; returns the slice unchanged when no ID matches. -/
def RemoveJob : List Job → Job → List Job
  | [], _ => []
  | x :: rest, job => if x.id = job.id then rest else x :: RemoveJob rest job

/-- `(*JobQueue).RemoveJobFromQueue`: a `switch` on `job.Priority` applies
`utils.RemoveJob` to the matching pending lane; other priorities fall
through and nothing changes. -/
def JobQueue.RemoveJobFromQueue (q : JobQueue) (job : Job) : JobQueue :=
  if job.priority = High then { q with queueHigh := RemoveJob q.queueHigh job }
  else if job.priority = Medium then { q with queueMedium := RemoveJob q.queueMedium job }
  else if job.priority = Low then { q with queueLow := RemoveJob q.queueLow job }
  else q

/-- `(*JobQueue).MoveJobToDeadLetterQueue`: in the lane matching
`job.Priority`, first removes the job (by ID) from the pending lane, then
appends it to the dead-letter lane; other priorities fall through the
`switch` and nothing changes. -/
def JobQueue.MoveJobToDeadLetterQueue (q : JobQueue) (job : Job) : JobQueue :=
  if job.priority = High then
    { q with queueHigh := RemoveJob q.queueHigh job
             deadLetterHigh := q.deadLetterHigh ++ [job] }
  else if job.priority = Medium then
    { q with queueMedium := RemoveJob q.queueMedium job
             deadLetterMedium := q.deadLetterMedium ++ [job] }
  else if job.priority = Low then
    { q with queueLow := RemoveJob q.queueLow job
             deadLetterLow := q.deadLetterLow ++ [job] }
  else q

/-- `(*JobQueue).GetDeadLetterJob`: same head-of-first-non-empty-lane
discipline as `GetJob`, over the dead-letter lanes. -/
def JobQueue.GetDeadLetterJob (q : JobQueue) : Option Job × JobQueue :=
  match q.deadLetterHigh with
  | job :: rest => (some job, { q with deadLetterHigh := rest })
  | [] =>
    match q.deadLetterMedium with
    | job :: rest => (some job, { q with deadLetterMedium := rest })
    | [] =>
      match q.deadLetterLow with
      | job :: rest => (some job, { q with deadLetterLow := rest })
      | [] => (none, q)

/-- Total number of pending jobs, the termination measure for `drain`. -/
def JobQueue.pendingCount (q : JobQueue) : Nat :=
  q.queueHigh.length + q.queueMedium.length + q.queueLow.length

/-- Repeated `GetJob` until the store signals `Empty`: the sequence of jobs
a single consumer observes. -/
def JobQueue.drain (q : JobQueue) : List Job :=
  match hq : q.GetJob with
  | (some job, q') => job :: q'.drain
  | (none, _) => []
termination_by q.pendingCount
decreasing_by
  unfold JobQueue.GetJob at hq
  rcases hH : q.queueHigh with _ | ⟨a, tH⟩ <;> rw [hH] at hq
  · rcases hM : q.queueMedium with _ | ⟨b, tM⟩ <;> rw [hM] at hq
    · rcases hL : q.queueLow with _ | ⟨c, tL⟩ <;> rw [hL] at hq
      · exact absurd (congrArg Prod.fst hq) (by simp)
      · cases hq
        simp [JobQueue.pendingCount, hH, hM, hL]
    · cases hq
      simp [JobQueue.pendingCount, hH, hM]
  · cases hq
    simp [JobQueue.pendingCount, hH]

/-- A sequence of `AddJob` calls against a fresh store, in the given
order. -/
def enqueueAll (js : List Job) : JobQueue :=
  js.foldl JobQueue.AddJob NewQueue

/-!
Worker (`worker/worker.go`).  `Worker.Start` loops: dequeue, run
`handleJob`, and on failure increment `RetryCount` on the local copy `j`,
then either (retry branch, `j.RetryCount <= j.MaxRetries`) compute
`delay := time.Duration(math.Pow(2, float64(j.RetryCount))) * time.Second`
and re-`AddJob` the copy after sleeping `delay`, or (exhausted branch) call
`MoveJobToDeadLetterQueue` with the copy.  The embedding models the failure
path of one loop iteration; sleeps and goroutine interleavings only delay
the `AddJob`, they do not change the job value that re-enters the store.
-/

/-- Seconds of `time.Duration(math.Pow(2, float64(rc))) * time.Second`:
exact `2 ^ rc` for the non-negative exponents that arise in the repository
(float conversion of a negative exponent truncates to zero seconds). -/
def backoffDelay (rc : Int) : Nat :=
  if 0 ≤ rc then 2 ^ rc.toNat else 0

/-- What the worker does with a job whose handler just failed: the job
value it hands back to the store, and through which call. -/
inductive FailOutcome where
  /-- `AddJob` is called with `next` after sleeping `delaySec` seconds. -/
  | retry (delaySec : Nat) (next : Job)
  /-- `MoveJobToDeadLetterQueue` is called with `next`. -/
  | dead (next : Job)

/-- `worker.go` lines 34-47, the `err != nil` branch of one loop
iteration: `j.RetryCount++`, then retry with exponential backoff while
`j.RetryCount <= j.MaxRetries`, else move to the dead-letter store. -/
def onJobFailure (j : Job) : FailOutcome :=
  let j' := { j with retryCount := j.retryCount + 1 }
  if j'.retryCount ≤ j'.maxRetries then
    FailOutcome.retry (backoffDelay j'.retryCount) j'
  else
    FailOutcome.dead j'

/-- The job value carried by either outcome. -/
def FailOutcome.job : FailOutcome → Job
  | .retry _ x => x
  | .dead x => x

/-- The whole retry protocol for a job whose handler fails on every
attempt: each attempt runs the `onJobFailure` branch; a retried job
re-enters the store unchanged and is eventually dequeued and attempted
again.  Returns the total number of attempts and the job value finally
passed to `MoveJobToDeadLetterQueue`. -/
def retryLoopFail (j : Job) : Nat × Job :=
  let j' := { j with retryCount := j.retryCount + 1 }
  if j'.retryCount ≤ j'.maxRetries then
    let r := retryLoopFail j'
    (r.1 + 1, r.2)
  else
    (1, j')
termination_by (j.maxRetries + 1 - j.retryCount).toNat
decreasing_by simp only at *; omega

/-!
Scheduler (`scheduler` package).  A `ScheduleJob` wraps a job with its
fire time; `JobHeap` is a slice ordered by Go's `container/heap` with
`Less i j = ScheduleTime[i].Before(ScheduleTime[j])` (strict).  The
`index` field of `ScheduleJob` is omitted: it is written by `Swap`/`Push`
but never read in this repository (only `heap.Fix`/`heap.Remove`, which
are not called, would read it), so it cannot affect any claim.

`heap.Push` appends and sifts up; `heap.Pop` swaps the root with the last
element, sifts down over the shortened prefix, and removes and returns the
last element (the old root).  The sift routines are transcribed from Go's
`container/heap` `up` and `down`.
-/

/-- Go struct `scheduler.ScheduleJob` (without the unread `index`
field). -/
structure ScheduleJob where
  job : Job
  scheduleTime : Nat
deriving Inhabited

/-- The slice read `h[i]` (out-of-range reads never occur on the paths the
claims exercise; the default keeps the function total). -/
def entryAt (h : List ScheduleJob) (i : Nat) : ScheduleJob :=
  h.getD i default

/-- The key `container/heap` compares: `ScheduleTime`, as `Nat`. -/
def keyAt (h : List ScheduleJob) (i : Nat) : Nat :=
  (entryAt h i).scheduleTime

/-- `JobHeap.Swap`: exchange the entries at `i` and `j`. -/
def swapAt (h : List ScheduleJob) (i j : Nat) : List ScheduleJob :=
  (h.set i (entryAt h j)).set j (entryAt h i)

/-- `container/heap`'s `up`: while `j` has a parent `i = (j-1)/2` with
`Less(j, i)`, swap and continue from the parent.  (In Go, `i == j` exactly
when `j == 0`.) -/
def up (h : List ScheduleJob) (j : Nat) : List ScheduleJob :=
  if j = 0 then h
  else
    let i := (j - 1) / 2
    if keyAt h j < keyAt h i then up (swapAt h i j) i else h
termination_by j
decreasing_by omega

/-- `container/heap`'s `down`, child selection: the left child `2*i+1`,
or the right child when it exists and compares strictly smaller. -/
def pickChild (h : List ScheduleJob) (i n : Nat) : Nat :=
  if 2 * i + 2 < n ∧ keyAt h (2 * i + 2) < keyAt h (2 * i + 1) then 2 * i + 2
  else 2 * i + 1

/-- `container/heap`'s `down` restricted to the prefix of length `n`:
while `i` has a child within `n` whose key is strictly smaller, swap with
the smaller child and continue there. -/
def down (h : List ScheduleJob) (i n : Nat) : List ScheduleJob :=
  if hc : 2 * i + 1 < n then
    let j := pickChild h i n
    if keyAt h j < keyAt h i then down (swapAt h i j) j n else h
  else h
termination_by n - i
decreasing_by
  have hj : i < pickChild h i n ∧ pickChild h i n < n := by
    unfold pickChild; split <;> omega
  omega

/-- `heap.Push` on a `JobHeap`: `JobHeap.Push` appends, then `up` runs
from the last index. -/
def heapPush (h : List ScheduleJob) (x : ScheduleJob) : List ScheduleJob :=
  up (h ++ [x]) h.length

/-- `heap.Pop` on a `JobHeap`: swap root and last, sift the root down over
the first `Len-1` entries, then `JobHeap.Pop` removes and returns the last
entry (the old root).  The poller only calls it on a non-empty heap. -/
def heapPop (h : List ScheduleJob) : ScheduleJob × List ScheduleJob :=
  let n := h.length - 1
  let h2 := down (swapAt h 0 n) 0 n
  (entryAt h2 n, h2.take n)

/-- Go struct `scheduler.Scheduler`: the heap and the priority store (the
mutex is omitted; the embedding is sequential). -/
structure Scheduler where
  heap : List ScheduleJob
  queue : JobQueue

/-- `scheduler.NewScheduler`: empty heap (`heap.Init` of an empty slice is
the empty slice) over the given store. -/
def NewScheduler (q : JobQueue) : Scheduler :=
  { heap := [], queue := q }

/-- The method `(*Scheduler).Scheduler` (rendered `schedule`: a method
named after its own receiver type would shadow the type here): wraps the
job with `ScheduleTime = time.Now().Add(delay)` — here `now + delay` —
and pushes it onto the heap.  `now` is the wall clock at the moment of
the call. -/
def Scheduler.schedule (s : Scheduler) (j : Job) (delay now : Nat) : Scheduler :=
  { s with heap := heapPush s.heap { job := j, scheduleTime := now + delay } }

/-- One iteration of `(*Scheduler).poller`'s loop, at wall-clock `now`:
if the heap is non-empty and `time.Now().After(next.ScheduleTime)` — i.e.
`next.ScheduleTime < now`, strictly — for the root `next`, pop the heap
once and `AddJob` the root's job; otherwise do nothing and sleep. -/
def Scheduler.pollerTick (s : Scheduler) (now : Nat) : Scheduler :=
  if s.heap.length > 0 ∧ keyAt s.heap 0 < now then
    { heap := (heapPop s.heap).2, queue := s.queue.AddJob (entryAt s.heap 0).job }
  else s

/-- The binary-heap ordering on the prefix of length `n`: every child
within the prefix is at least its parent. -/
abbrev heapInvTo (h : List ScheduleJob) (n : Nat) : Prop :=
  ∀ k, k < n → 0 < k → keyAt h ((k - 1) / 2) ≤ keyAt h k

/-- The binary min-heap ordering of `container/heap`. -/
abbrev heapInv (h : List ScheduleJob) : Prop :=
  heapInvTo h h.length

/-- Scheduler states reachable by any interleaving of `Scheduler` calls
and poller iterations, from a fresh scheduler. -/
inductive Reach : Scheduler → Prop where
  | init (q : JobQueue) : Reach (NewScheduler q)
  | sched {s : Scheduler} (j : Job) (delay now : Nat) :
      Reach s → Reach (s.schedule j delay now)
  | tick {s : Scheduler} (now : Nat) :
      Reach s → Reach (s.pollerTick now)

/-- Sift-up intermediate invariant: every parent/child edge is ordered
except possibly the edge into `j`, and the children of `j` are already at
least `j`'s parent (so the parent may move down into `j`). -/
abbrev upInv (h : List ScheduleJob) (j : Nat) : Prop :=
  (∀ k, k < h.length → 0 < k → k ≠ j → keyAt h ((k - 1) / 2) ≤ keyAt h k) ∧
  (0 < j → ∀ c, c < h.length → (c - 1) / 2 = j →
    keyAt h ((j - 1) / 2) ≤ keyAt h c)

/-- Sift-down intermediate invariant on the prefix of length `n`: every
edge is ordered except possibly the edges out of `i`, and the children of
`i` are already at least `i`'s parent. -/
abbrev downInv (h : List ScheduleJob) (i n : Nat) : Prop :=
  (∀ k, k < n → 0 < k → (k - 1) / 2 ≠ i → keyAt h ((k - 1) / 2) ≤ keyAt h k) ∧
  (0 < i → ∀ c, c < n → (c - 1) / 2 = i → keyAt h ((i - 1) / 2) ≤ keyAt h c)

/-- A sample job (shaped like the CLI's `enqueue` command builds them),
used to instantiate the theorems below at concrete inputs. -/
def jobA : Job :=
  { id := "a", jobType := "email", payload := [("to", "a@example.com")]
    priority := High, retryCount := 0, maxRetries := 3, createdAt := 0 }

/-- A second sample job, of Low priority. -/
def jobB : Job :=
  { id := "b", jobType := "email", payload := [("to", "b@example.com")]
    priority := Low, retryCount := 0, maxRetries := 3, createdAt := 0 }

/-- A third sample job, of Medium priority. -/
def jobC : Job :=
  { id := "c", jobType := "email", payload := [("to", "c@example.com")]
    priority := Medium, retryCount := 0, maxRetries := 3, createdAt := 0 }

/-- A sample job whose priority value `0` is none of the three constants. -/
def jobBad : Job :=
  { id := "bad", jobType := "email", payload := []
    priority := 0, retryCount := 0, maxRetries := 3, createdAt := 0 }

/-- A scheduler holding two already-overdue entries (fire times 0 and 1),
as after two `Scheduler` calls that both came due. -/
def twoOverdue : Scheduler :=
  { heap := [{ job := jobA, scheduleTime := 0 }, { job := jobB, scheduleTime := 1 }]
    queue := NewQueue }

/-- A scheduler holding one entry whose fire time is exactly 5. -/
def dueAtFive : Scheduler :=
  { heap := [{ job := jobA, scheduleTime := 5 }], queue := NewQueue }

/-!  Helper lemmas about `utils.RemoveJob` and the lanes.  -/

theorem RemoveJob_of_forall_ne {l : List Job} {job : Job}
    (h : ∀ x ∈ l, x.id ≠ job.id) : RemoveJob l job = l := by
  induction l with
  | nil => rfl
  | cons x rest ih =>
    have hx : x.id ≠ job.id := h x (List.mem_cons_self x rest)
    simp only [RemoveJob, if_neg hx]
    rw [ih fun y hy => h y (List.mem_cons_of_mem x hy)]

theorem RemoveJob_length_le (l : List Job) (job : Job) :
    (RemoveJob l job).length ≤ l.length := by
  induction l with
  | nil => simp [RemoveJob]
  | cons x rest ih =>
    simp only [RemoveJob]
    split
    · simp
    · simpa using Nat.succ_le_succ ih

theorem length_le_RemoveJob_succ (l : List Job) (job : Job) :
    l.length ≤ (RemoveJob l job).length + 1 := by
  induction l with
  | nil => simp
  | cons x rest ih =>
    simp only [RemoveJob]
    split
    · simp
    · simpa using Nat.succ_le_succ ih

theorem GetJob_fst_none_iff (q : JobQueue) :
    (q.GetJob).1 = none ↔
      q.queueHigh = [] ∧ q.queueMedium = [] ∧ q.queueLow = [] := by
  rcases hH : q.queueHigh with _ | ⟨a, tH⟩ <;>
    rcases hM : q.queueMedium with _ | ⟨b, tM⟩ <;>
      rcases hL : q.queueLow with _ | ⟨c, tL⟩ <;>
        simp [JobQueue.GetJob, hH, hM, hL]

theorem GetJob_snd_of_none (q : JobQueue) (h : (q.GetJob).1 = none) :
    (q.GetJob).2 = q := by
  obtain ⟨hH, hM, hL⟩ := (GetJob_fst_none_iff q).mp h
  simp [JobQueue.GetJob, hH, hM, hL]

theorem GetDeadLetterJob_fst_none_iff (q : JobQueue) :
    (q.GetDeadLetterJob).1 = none ↔
      q.deadLetterHigh = [] ∧ q.deadLetterMedium = [] ∧ q.deadLetterLow = [] := by
  rcases hH : q.deadLetterHigh with _ | ⟨a, tH⟩ <;>
    rcases hM : q.deadLetterMedium with _ | ⟨b, tM⟩ <;>
      rcases hL : q.deadLetterLow with _ | ⟨c, tL⟩ <;>
        simp [JobQueue.GetDeadLetterJob, hH, hM, hL]

theorem GetDeadLetterJob_snd_of_none (q : JobQueue)
    (h : (q.GetDeadLetterJob).1 = none) : (q.GetDeadLetterJob).2 = q := by
  obtain ⟨hH, hM, hL⟩ := (GetDeadLetterJob_fst_none_iff q).mp h
  simp [JobQueue.GetDeadLetterJob, hH, hM, hL]

/-- C5: `GetJob`/`GetDeadLetterJob` signal the `"no job found"` error
exactly when all three of their lanes are empty; in that case the store
they hand back is unchanged, and otherwise they return some job. -/
theorem getJob_empty_signal (q : JobQueue) :
    ((q.GetJob).1 = none ↔
        q.queueHigh = [] ∧ q.queueMedium = [] ∧ q.queueLow = []) ∧
    ((q.GetJob).1 = none → (q.GetJob).2 = q) ∧
    (¬(q.queueHigh = [] ∧ q.queueMedium = [] ∧ q.queueLow = []) →
        ∃ j, (q.GetJob).1 = some j) ∧
    ((q.GetDeadLetterJob).1 = none ↔
        q.deadLetterHigh = [] ∧ q.deadLetterMedium = [] ∧ q.deadLetterLow = []) ∧
    ((q.GetDeadLetterJob).1 = none → (q.GetDeadLetterJob).2 = q) ∧
    (¬(q.deadLetterHigh = [] ∧ q.deadLetterMedium = [] ∧ q.deadLetterLow = []) →
        ∃ j, (q.GetDeadLetterJob).1 = some j) := by
  refine ⟨GetJob_fst_none_iff q, GetJob_snd_of_none q, fun hne => ?_,
    GetDeadLetterJob_fst_none_iff q, GetDeadLetterJob_snd_of_none q, fun hne => ?_⟩
  · rcases ho : (q.GetJob).1 with _ | j
    · exact absurd ((GetJob_fst_none_iff q).mp ho) hne
    · exact ⟨j, rfl⟩
  · rcases ho : (q.GetDeadLetterJob).1 with _ | j
    · exact absurd ((GetDeadLetterJob_fst_none_iff q).mp ho) hne
    · exact ⟨j, rfl⟩

theorem neMH : (Medium : Priority) ≠ High := by decide

theorem neLH : (Low : Priority) ≠ High := by decide

theorem neLM : (Low : Priority) ≠ Medium := by decide

theorem lane_High (q : JobQueue) : q.lane High = q.queueHigh := by
  simp [JobQueue.lane]

theorem lane_Medium (q : JobQueue) : q.lane Medium = q.queueMedium := by
  simp [JobQueue.lane, neMH]

theorem lane_Low (q : JobQueue) : q.lane Low = q.queueLow := by
  simp [JobQueue.lane, neLH, neLM]

theorem deadLane_High (q : JobQueue) : q.deadLane High = q.deadLetterHigh := by
  simp [JobQueue.deadLane]

theorem deadLane_Medium (q : JobQueue) :
    q.deadLane Medium = q.deadLetterMedium := by
  simp [JobQueue.deadLane, neMH]

theorem deadLane_Low (q : JobQueue) : q.deadLane Low = q.deadLetterLow := by
  simp [JobQueue.deadLane, neLH, neLM]

theorem move_eq_High (q : JobQueue) (job : Job) (hp : job.priority = High) :
    q.MoveJobToDeadLetterQueue job =
      { q with queueHigh := RemoveJob q.queueHigh job
               deadLetterHigh := q.deadLetterHigh ++ [job] } := by
  simp [JobQueue.MoveJobToDeadLetterQueue, hp]

theorem move_eq_Medium (q : JobQueue) (job : Job) (hp : job.priority = Medium) :
    q.MoveJobToDeadLetterQueue job =
      { q with queueMedium := RemoveJob q.queueMedium job
               deadLetterMedium := q.deadLetterMedium ++ [job] } := by
  simp [JobQueue.MoveJobToDeadLetterQueue, hp, neMH]

theorem move_eq_Low (q : JobQueue) (job : Job) (hp : job.priority = Low) :
    q.MoveJobToDeadLetterQueue job =
      { q with queueLow := RemoveJob q.queueLow job
               deadLetterLow := q.deadLetterLow ++ [job] } := by
  simp [JobQueueGo.JobQueue.MoveJobToDeadLetterQueue, hp, neLH, neLM]

/-- C6: removing a job whose ID matches nothing in the lane of its
priority leaves the whole store exactly as it was (hence also every other
lane); no error is ever signalled (`RemoveJobFromQueue` cannot fail). -/
theorem removeJobFromQueue_not_found_noop (q : JobQueue) (job : Job)
    (h : ∀ x ∈ q.lane job.priority, x.id ≠ job.id) :
    q.RemoveJobFromQueue job = q := by
  unfold JobQueue.RemoveJobFromQueue
  by_cases h1 : job.priority = High
  · rw [h1, lane_High] at h
    simp [h1, RemoveJob_of_forall_ne h]
  · by_cases h2 : job.priority = Medium
    · rw [h2, lane_Medium] at h
      simp [h2, neMH, RemoveJob_of_forall_ne h]
    · by_cases h3 : job.priority = Low
      · rw [h3, lane_Low] at h
        simp [h3, neLH, neLM, RemoveJob_of_forall_ne h]
      · rw [if_neg h1, if_neg h2, if_neg h3]

/-- C9: a job whose priority is none of `High`, `Medium`, `Low` falls
through the `switch` in both `AddJob` and `MoveJobToDeadLetterQueue`:
no error value exists to signal, and every lane is left untouched. -/
theorem invalid_priority_dropped (q : JobQueue) (job : Job)
    (h1 : job.priority ≠ High) (h2 : job.priority ≠ Medium)
    (h3 : job.priority ≠ Low) :
    q.AddJob job = q ∧ q.MoveJobToDeadLetterQueue job = q := by
  constructor
  · unfold JobQueue.AddJob
    rw [if_neg h1, if_neg h2, if_neg h3]
  · unfold JobQueue.MoveJobToDeadLetterQueue
    rw [if_neg h1, if_neg h2, if_neg h3]

/-- C4: for a job with a valid priority, `MoveJobToDeadLetterQueue`
applies `utils.RemoveJob` to the pending lane of that priority (removing
at most one entry, by ID), appends the job to the matching dead-letter
lane exactly once — also when no pending entry matched — and leaves the
other four lanes untouched. -/
theorem moveToDeadLetter_spec (q : JobQueue) (job : Job)
    (h : job.priority = High ∨ job.priority = Medium ∨ job.priority = Low) :
    (q.MoveJobToDeadLetterQueue job).lane job.priority
        = RemoveJob (q.lane job.priority) job ∧
    (q.MoveJobToDeadLetterQueue job).deadLane job.priority
        = q.deadLane job.priority ++ [job] ∧
    ((q.MoveJobToDeadLetterQueue job).lane job.priority).length
        ≤ (q.lane job.priority).length ∧
    (q.lane job.priority).length
        ≤ ((q.MoveJobToDeadLetterQueue job).lane job.priority).length + 1 ∧
    ((q.MoveJobToDeadLetterQueue job).deadLane job.priority).length
        = (q.deadLane job.priority).length + 1 ∧
    (∀ p : Priority, p ≠ job.priority →
      (q.MoveJobToDeadLetterQueue job).lane p = q.lane p ∧
      (q.MoveJobToDeadLetterQueue job).deadLane p = q.deadLane p) := by
  rcases h with hp | hp | hp
  · rw [hp, move_eq_High q job hp]
    refine ⟨lane_High _, deadLane_High _, ?_, ?_, ?_, fun p hne => ?_⟩
    · rw [lane_High, lane_High]; exact RemoveJob_length_le _ _
    · rw [lane_High, lane_High]; exact length_le_RemoveJob_succ _ _
    · rw [deadLane_High, deadLane_High]; simp
    · constructor <;> simp [JobQueue.lane, JobQueue.deadLane, hne]
  · rw [hp, move_eq_Medium q job hp]
    refine ⟨lane_Medium _, deadLane_Medium _, ?_, ?_, ?_, fun p hne => ?_⟩
    · rw [lane_Medium, lane_Medium]; exact RemoveJob_length_le _ _
    · rw [lane_Medium, lane_Medium]; exact length_le_RemoveJob_succ _ _
    · rw [deadLane_Medium, deadLane_Medium]; simp
    · constructor <;> simp [JobQueue.lane, JobQueue.deadLane, hne]
  · rw [hp, move_eq_Low q job hp]
    refine ⟨lane_Low _, deadLane_Low _, ?_, ?_, ?_, fun p hne => ?_⟩
    · rw [lane_Low, lane_Low]; exact RemoveJob_length_le _ _
    · rw [lane_Low, lane_Low]; exact length_le_RemoveJob_succ _ _
    · rw [deadLane_Low, deadLane_Low]; simp
    · constructor <;> simp [JobQueue.lane, JobQueue.deadLane, hne]

theorem foldl_AddJob_lanes (js : List Job) (q : JobQueue) :
    (js.foldl JobQueue.AddJob q).queueHigh
        = q.queueHigh ++ js.filter (fun j => decide (j.priority = High)) ∧
    (js.foldl JobQueue.AddJob q).queueMedium
        = q.queueMedium ++ js.filter (fun j => decide (j.priority = Medium)) ∧
    (js.foldl JobQueue.AddJob q).queueLow
        = q.queueLow ++ js.filter (fun j => decide (j.priority = Low)) := by
  induction js generalizing q with
  | nil => simp
  | cons j rest ih =>
    simp only [List.foldl_cons, List.filter_cons]
    obtain ⟨ih1, ih2, ih3⟩ := ih (q.AddJob j)
    by_cases h1 : j.priority = High
    · have hadd : q.AddJob j = { q with queueHigh := q.queueHigh ++ [j] } := by
        simp [JobQueue.AddJob, h1]
      refine ⟨?_, ?_, ?_⟩
      · rw [ih1, hadd]; simp [h1]
      · rw [ih2, hadd]; simp [h1, High, Medium]
      · rw [ih3, hadd]; simp [h1, High, Low]
    · by_cases h2 : j.priority = Medium
      · have hadd : q.AddJob j = { q with queueMedium := q.queueMedium ++ [j] } := by
          simp [JobQueue.AddJob, h2, neMH]
        refine ⟨?_, ?_, ?_⟩
        · rw [ih1, hadd]; simp [h2, High, Medium]
        · rw [ih2, hadd]; simp [h2]
        · rw [ih3, hadd]; simp [h2, Medium, Low]
      · by_cases h3 : j.priority = Low
        · have hadd : q.AddJob j = { q with queueLow := q.queueLow ++ [j] } := by
            simp [JobQueue.AddJob, h3, neLH, neLM]
          refine ⟨?_, ?_, ?_⟩
          · rw [ih1, hadd]; simp [h3, High, Low]
          · rw [ih2, hadd]; simp [h3, Medium, Low]
          · rw [ih3, hadd]; simp [h3]
        · have hadd : q.AddJob j = q := by
            simp [JobQueue.AddJob, h1, h2, h3]
          refine ⟨?_, ?_, ?_⟩
          · rw [ih1, hadd]; simp [h1]
          · rw [ih2, hadd]; simp [h2]
          · rw [ih3, hadd]; simp [h3]

theorem drain_eq (q : JobQueue) :
    q.drain = q.queueHigh ++ q.queueMedium ++ q.queueLow := by
  suffices H : ∀ n (q : JobQueue), q.pendingCount ≤ n →
      q.drain = q.queueHigh ++ q.queueMedium ++ q.queueLow from
    H q.pendingCount q le_rfl
  intro n
  induction n with
  | zero =>
    intro q hq
    unfold JobQueue.pendingCount at hq
    have hH : q.queueHigh = [] := List.length_eq_zero.mp (by omega)
    have hM : q.queueMedium = [] := List.length_eq_zero.mp (by omega)
    have hL : q.queueLow = [] := List.length_eq_zero.mp (by omega)
    rw [JobQueue.drain]
    split
    · next job q' hgq =>
      rw [JobQueue.GetJob, hH, hM, hL] at hgq
      simp at hgq
    · rw [hH, hM, hL]
      rfl
  | succ n ih =>
    intro q hq
    rw [JobQueue.drain]
    split
    · next job q' hgq =>
      rcases hH : q.queueHigh with _ | ⟨a, tH⟩
      · rcases hM : q.queueMedium with _ | ⟨b, tM⟩
        · rcases hL : q.queueLow with _ | ⟨c, tL⟩
          · have hget : q.GetJob = (none, q) := by
              unfold JobQueue.GetJob
              rw [hH, hM, hL]
            rw [hget] at hgq
            simp at hgq
          · have hget : q.GetJob = (some c, { q with queueLow := tL }) := by
              unfold JobQueue.GetJob
              rw [hH, hM, hL]
            rw [hget] at hgq
            simp only [Prod.mk.injEq, Option.some.injEq] at hgq
            obtain ⟨hj, hq'⟩ := hgq
            subst hq'
            subst hj
            have hcount : ({ q with queueLow := tL } : JobQueue).pendingCount ≤ n := by
              unfold JobQueue.pendingCount at hq ⊢
              rw [hL] at hq
              simp at hq ⊢
              omega
            rw [ih _ hcount]
            simp [hH, hM, hL]
        · have hget : q.GetJob = (some b, { q with queueMedium := tM }) := by
            unfold JobQueue.GetJob
            rw [hH, hM]
          rw [hget] at hgq
          simp only [Prod.mk.injEq, Option.some.injEq] at hgq
          obtain ⟨hj, hq'⟩ := hgq
          subst hq'
          subst hj
          have hcount : ({ q with queueMedium := tM } : JobQueue).pendingCount ≤ n := by
            unfold JobQueue.pendingCount at hq ⊢
            rw [hM] at hq
            simp at hq ⊢
            omega
          rw [ih _ hcount]
          simp [hH, hM]
      · have hget : q.GetJob = (some a, { q with queueHigh := tH }) := by
          unfold JobQueue.GetJob
          rw [hH]
        rw [hget] at hgq
        simp only [Prod.mk.injEq, Option.some.injEq] at hgq
        obtain ⟨hj, hq'⟩ := hgq
        subst hq'
        subst hj
        have hcount : ({ q with queueHigh := tH } : JobQueue).pendingCount ≤ n := by
          unfold JobQueue.pendingCount at hq ⊢
          rw [hH] at hq
          simp at hq ⊢
          omega
        rw [ih _ hcount]
        simp [hH]
    · next x hgq =>
      obtain ⟨hH, hM, hL⟩ := (GetJob_fst_none_iff q).mp (by rw [hgq])
      rw [hH, hM, hL]
      rfl

/-- C1: whatever the interleaving of priorities in the `AddJob` sequence,
draining the store by repeated `GetJob` yields all High jobs in insertion
order, then all Medium jobs in insertion order, then all Low jobs in
insertion order. -/
theorem enqueue_dequeue_priority_fifo (js : List Job)
    (hval : ∀ j ∈ js,
      j.priority = High ∨ j.priority = Medium ∨ j.priority = Low) :
    (enqueueAll js).drain
      = js.filter (fun j => decide (j.priority = High))
        ++ js.filter (fun j => decide (j.priority = Medium))
        ++ js.filter (fun j => decide (j.priority = Low)) := by
  obtain ⟨h1, h2, h3⟩ := foldl_AddJob_lanes js NewQueue
  rw [drain_eq]
  unfold enqueueAll
  rw [h1, h2, h3]
  simp [NewQueue]

theorem move_deadLane_append (q : JobQueue) (job : Job)
    (h : job.priority = High ∨ job.priority = Medium ∨ job.priority = Low) :
    (q.MoveJobToDeadLetterQueue job).deadLane job.priority
      = q.deadLane job.priority ++ [job] := by
  rcases h with hp | hp | hp
  · rw [hp, move_eq_High q job hp, deadLane_High, deadLane_High]
  · rw [hp, move_eq_Medium q job hp, deadLane_Medium, deadLane_Medium]
  · rw [hp, move_eq_Low q job hp, deadLane_Low, deadLane_Low]

theorem retryLoopFail_last (j : Job) (heq : j.retryCount = j.maxRetries) :
    retryLoopFail j = (1, { j with retryCount := j.maxRetries + 1 }) := by
  rw [retryLoopFail]
  split
  · next hle =>
    simp only at hle
    omega
  · rw [heq]

theorem retryLoopFail_eq : ∀ (j : Job), j.retryCount ≤ j.maxRetries →
    retryLoopFail j
      = ((j.maxRetries - j.retryCount).toNat + 1,
         { j with retryCount := j.maxRetries + 1 }) := by
  suffices H : ∀ n (j : Job), (j.maxRetries - j.retryCount).toNat ≤ n →
      j.retryCount ≤ j.maxRetries →
      retryLoopFail j
        = ((j.maxRetries - j.retryCount).toNat + 1,
           { j with retryCount := j.maxRetries + 1 }) from
    fun j h => H _ j le_rfl h
  intro n
  induction n with
  | zero =>
    intro j hn hle
    have heq : j.retryCount = j.maxRetries := by omega
    rw [retryLoopFail_last j heq, heq]
    simp
  | succ n ihn =>
    intro j hn hle
    by_cases hstep : j.retryCount + 1 ≤ j.maxRetries
    · rw [retryLoopFail]
      split
      · next hle' =>
        have ihj := ihn { j with retryCount := j.retryCount + 1 }
          (by simp; omega) (by simp; omega)
        rw [ihj]
        simp only [Prod.mk.injEq]
        constructor
        · show ((j.maxRetries - (j.retryCount + 1)).toNat + 1) + 1
              = (j.maxRetries - j.retryCount).toNat + 1
          omega
        · trivial
      · next hnle =>
        simp only at hnle
        omega
    · have heq : j.retryCount = j.maxRetries := by omega
      rw [retryLoopFail_last j heq, heq]
      simp

/-- C2: a job entering with `retryCount = 0` whose handler fails on every
attempt is attempted exactly `maxRetries + 1` times; the moment its
retry count first exceeds `maxRetries` — at value `maxRetries + 1` — it
is handed to `MoveJobToDeadLetterQueue`, which appends it, with that
retry count and its original priority, to the dead-letter lane of that
original priority. -/
theorem always_failing_job_dies (q : JobQueue) (j : Job)
    (hrc : j.retryCount = 0) (hm : 0 ≤ j.maxRetries)
    (hp : j.priority = High ∨ j.priority = Medium ∨ j.priority = Low) :
    (retryLoopFail j).1 = j.maxRetries.toNat + 1 ∧
    (retryLoopFail j).2.retryCount = j.maxRetries + 1 ∧
    (retryLoopFail j).2.priority = j.priority ∧
    (q.MoveJobToDeadLetterQueue (retryLoopFail j).2).deadLane j.priority
      = q.deadLane j.priority ++ [(retryLoopFail j).2] := by
  have h0 : j.retryCount ≤ j.maxRetries := by omega
  rw [retryLoopFail_eq j h0, hrc]
  refine ⟨by simp, by simp, by simp, ?_⟩
  exact move_deadLane_append q { j with retryCount := j.maxRetries + 1 } hp

/-- C10: whatever the worker does after a failure — re-enqueue with
backoff or move to dead-letter — the job value it hands back differs from
the dequeued one only in `retryCount`, incremented by exactly one. -/
theorem failure_changes_only_retryCount (j : Job) :
    ((onJobFailure j).job).id = j.id ∧
    ((onJobFailure j).job).jobType = j.jobType ∧
    ((onJobFailure j).job).payload = j.payload ∧
    ((onJobFailure j).job).priority = j.priority ∧
    ((onJobFailure j).job).maxRetries = j.maxRetries ∧
    ((onJobFailure j).job).createdAt = j.createdAt ∧
    ((onJobFailure j).job).retryCount = j.retryCount + 1 := by
  unfold onJobFailure
  simp only []
  split <;> simp [FailOutcome.job]

/-!  Heap lemmas: positions, swaps, and the two sift routines.  -/

theorem entryAt_eq (h : List ScheduleJob) (i : Nat) :
    entryAt h i = (h[i]?).getD default := by
  simp [entryAt]

theorem entryAt_eq_getElem (h : List ScheduleJob) (i : Nat) (hi : i < h.length) :
    entryAt h i = h[i] := by
  rw [entryAt_eq, List.getElem?_eq_getElem hi, Option.getD_some]

theorem length_swapAt (h : List ScheduleJob) (i j : Nat) :
    (swapAt h i j).length = h.length := by
  simp [swapAt]

theorem entryAt_swapAt_right (h : List ScheduleJob) (i j : Nat)
    (hj : j < h.length) :
    entryAt (swapAt h i j) j = entryAt h i := by
  rw [entryAt_eq, swapAt, List.getElem?_set_self (by simpa using hj),
    Option.getD_some]

theorem entryAt_swapAt_left (h : List ScheduleJob) (i j : Nat)
    (hi : i < h.length) (hj : j < h.length) :
    entryAt (swapAt h i j) i = entryAt h j := by
  by_cases hij : i = j
  · subst hij
    exact entryAt_swapAt_right h i i hi
  · rw [entryAt_eq, swapAt, List.getElem?_set_ne (Ne.symm hij),
      List.getElem?_set_self hi, Option.getD_some]

theorem entryAt_swapAt_other (h : List ScheduleJob) (i j k : Nat)
    (hki : k ≠ i) (hkj : k ≠ j) :
    entryAt (swapAt h i j) k = entryAt h k := by
  rw [entryAt_eq, swapAt, List.getElem?_set_ne (Ne.symm hkj),
    List.getElem?_set_ne (Ne.symm hki), ← entryAt_eq]

theorem keyAt_swapAt_right (h : List ScheduleJob) (i j : Nat)
    (hj : j < h.length) : keyAt (swapAt h i j) j = keyAt h i :=
  congrArg ScheduleJob.scheduleTime (entryAt_swapAt_right h i j hj)

theorem keyAt_swapAt_left (h : List ScheduleJob) (i j : Nat)
    (hi : i < h.length) (hj : j < h.length) :
    keyAt (swapAt h i j) i = keyAt h j :=
  congrArg ScheduleJob.scheduleTime (entryAt_swapAt_left h i j hi hj)

theorem keyAt_swapAt_other (h : List ScheduleJob) (i j k : Nat)
    (hki : k ≠ i) (hkj : k ≠ j) :
    keyAt (swapAt h i j) k = keyAt h k :=
  congrArg ScheduleJob.scheduleTime (entryAt_swapAt_other h i j k hki hkj)

theorem keyAt_append_lt (h : List ScheduleJob) (x : ScheduleJob) (m : Nat)
    (hm : m < h.length) : keyAt (h ++ [x]) m = keyAt h m := by
  rw [keyAt, keyAt, entryAt_eq, entryAt_eq, List.getElem?_append_left hm]

theorem keyAt_take (l : List ScheduleJob) (n m : Nat) (hm : m < n) :
    keyAt (l.take n) m = keyAt l m := by
  rw [keyAt, keyAt, entryAt_eq, entryAt_eq, List.getElem?_take_of_lt hm]

theorem pickChild_gt (h : List ScheduleJob) (i n : Nat) :
    i < pickChild h i n := by
  unfold pickChild
  split <;> omega

theorem pickChild_lt (h : List ScheduleJob) (i n : Nat) (hc : 2 * i + 1 < n) :
    pickChild h i n < n := by
  unfold pickChild
  split <;> omega

theorem pickChild_parent (h : List ScheduleJob) (i n : Nat) :
    (pickChild h i n - 1) / 2 = i := by
  unfold pickChild
  split <;> omega

theorem pickChild_le_left (h : List ScheduleJob) (i n : Nat) :
    keyAt h (pickChild h i n) ≤ keyAt h (2 * i + 1) := by
  unfold pickChild
  split
  · next hcond => exact Nat.le_of_lt hcond.2
  · exact le_rfl

theorem pickChild_le_right (h : List ScheduleJob) (i n : Nat)
    (h2 : 2 * i + 2 < n) :
    keyAt h (pickChild h i n) ≤ keyAt h (2 * i + 2) := by
  unfold pickChild
  split
  · exact le_rfl
  · next hcond =>
    rw [not_and] at hcond
    exact Nat.le_of_not_lt (hcond h2)

theorem up_length : ∀ (j : Nat) (h : List ScheduleJob),
    (up h j).length = h.length := by
  intro j
  induction j using Nat.strong_induction_on with
  | _ j ih =>
    intro h
    rw [up]
    split
    · rfl
    · next hj0 =>
      show (if keyAt h j < keyAt h ((j - 1) / 2)
          then up (swapAt h ((j - 1) / 2) j) ((j - 1) / 2) else h).length
          = h.length
      split
      · rw [ih ((j - 1) / 2) (by omega), length_swapAt]
      · rfl

theorem upInv_swap (h : List ScheduleJob) (j : Nat) (hj : j < h.length)
    (hj0 : j ≠ 0) (hinv : upInv h j)
    (hlt : keyAt h j < keyAt h ((j - 1) / 2)) :
    upInv (swapAt h ((j - 1) / 2) j) ((j - 1) / 2) := by
  obtain ⟨h1, h2⟩ := hinv
  have hij : (j - 1) / 2 < j := by omega
  have hi_len : (j - 1) / 2 < h.length := lt_trans hij hj
  constructor
  · intro k hk h0k hki
    rw [length_swapAt] at hk
    by_cases hkj : k = j
    · rw [hkj, keyAt_swapAt_left h _ j hi_len hj, keyAt_swapAt_right h _ j hj]
      exact Nat.le_of_lt hlt
    · by_cases hpki : (k - 1) / 2 = (j - 1) / 2
      · rw [hpki, keyAt_swapAt_left h _ j hi_len hj,
          keyAt_swapAt_other h _ j k hki hkj]
        have hik := h1 k hk h0k hkj
        rw [hpki] at hik
        exact le_trans (Nat.le_of_lt hlt) hik
      · by_cases hpkj : (k - 1) / 2 = j
        · rw [hpkj, keyAt_swapAt_right h _ j hj,
            keyAt_swapAt_other h _ j k hki hkj]
          have := h2 (by omega) k hk hpkj
          exact this
        · rw [keyAt_swapAt_other h _ j _ hpki hpkj,
            keyAt_swapAt_other h _ j k hki hkj]
          exact h1 k hk h0k hkj
  · intro h0i c hc hpc
    rw [length_swapAt] at hc
    have hpi_ne_i : ((j - 1) / 2 - 1) / 2 ≠ (j - 1) / 2 := by omega
    have hpi_ne_j : ((j - 1) / 2 - 1) / 2 ≠ j := by omega
    rw [keyAt_swapAt_other h _ j _ hpi_ne_i hpi_ne_j]
    by_cases hcj : c = j
    · rw [hcj, keyAt_swapAt_right h _ j hj]
      exact h1 _ hi_len h0i (by omega)
    · have hci : c ≠ (j - 1) / 2 := by omega
      rw [keyAt_swapAt_other h _ j c hci hcj]
      have hc_pos : 0 < c := by omega
      have hstep := h1 c hc hc_pos hcj
      rw [hpc] at hstep
      exact le_trans (h1 _ hi_len h0i (by omega)) hstep

theorem up_heapInv : ∀ (j : Nat) (h : List ScheduleJob), j < h.length →
    upInv h j → heapInv (up h j) := by
  intro j
  induction j using Nat.strong_induction_on with
  | _ j ih =>
    intro h hj hinv
    rw [up]
    split
    · next hj0 =>
      subst hj0
      intro k hk h0k
      exact hinv.1 k hk h0k (by omega)
    · next hj0 =>
      show heapInv (if keyAt h j < keyAt h ((j - 1) / 2)
          then up (swapAt h ((j - 1) / 2) j) ((j - 1) / 2) else h)
      split
      · next hlt =>
        exact ih ((j - 1) / 2) (by omega) (swapAt h ((j - 1) / 2) j)
          (by rw [length_swapAt]; omega)
          (upInv_swap h j hj hj0 hinv hlt)
      · next hnlt =>
        intro k hk h0k
        by_cases hkj : k = j
        · subst hkj
          exact Nat.le_of_not_lt hnlt
        · exact hinv.1 k hk h0k hkj

theorem upInv_append (h : List ScheduleJob) (x : ScheduleJob)
    (hinv : heapInv h) : upInv (h ++ [x]) h.length := by
  constructor
  · intro k hk h0k hkne
    have hk' : k < h.length := by
      simp at hk
      omega
    have hpar : (k - 1) / 2 < h.length := by omega
    rw [keyAt_append_lt h x _ hpar, keyAt_append_lt h x _ hk']
    exact hinv k hk' h0k
  · intro h0 c hc hpc
    simp at hc
    omega

theorem heapPush_heapInv (h : List ScheduleJob) (x : ScheduleJob)
    (hinv : heapInv h) : heapInv (heapPush h x) := by
  have := up_heapInv h.length (h ++ [x]) (by simp) (upInv_append h x hinv)
  exact this

theorem down_length : ∀ (d i : Nat) (h : List ScheduleJob) (n : Nat),
    n - i ≤ d → (down h i n).length = h.length := by
  intro d
  induction d with
  | zero =>
    intro i h n hd
    rw [down, dif_neg (by omega)]
  | succ d ihd =>
    intro i h n hd
    rw [down]
    split
    · next hc =>
      show (if keyAt h (pickChild h i n) < keyAt h i
          then down (swapAt h i (pickChild h i n)) (pickChild h i n) n
          else h).length = h.length
      split
      · rw [ihd (pickChild h i n) _ n
          (by have := pickChild_gt h i n; have := pickChild_lt h i n hc; omega),
          length_swapAt]
      · rfl
    · rfl

theorem downInv_swap (h : List ScheduleJob) (i n : Nat) (hn : n ≤ h.length)
    (hc : 2 * i + 1 < n) (hinv : downInv h i n)
    (hlt : keyAt h (pickChild h i n) < keyAt h i) :
    downInv (swapAt h i (pickChild h i n)) (pickChild h i n) n := by
  obtain ⟨h1, h2⟩ := hinv
  have hij : i < pickChild h i n := pickChild_gt h i n
  have hjn : pickChild h i n < n := pickChild_lt h i n hc
  have hj_len : pickChild h i n < h.length := lt_of_lt_of_le hjn hn
  have hi_len : i < h.length := lt_trans hij hj_len
  have hpj : (pickChild h i n - 1) / 2 = i := pickChild_parent h i n
  have hjis : pickChild h i n = 2 * i + 1 ∨ pickChild h i n = 2 * i + 2 := by
    unfold pickChild
    split
    · right; rfl
    · left; rfl
  constructor
  · intro k hk h0k hpkj
    by_cases hki : k = i
    · have h0i : 0 < i := by omega
      have hpi1 : (i - 1) / 2 ≠ i := by omega
      have hpi2 : (i - 1) / 2 ≠ pickChild h i n := by omega
      rw [hki, keyAt_swapAt_other h i _ _ hpi1 hpi2,
        keyAt_swapAt_left h i _ hi_len hj_len]
      exact h2 h0i (pickChild h i n) hjn hpj
    · by_cases hkj : k = pickChild h i n
      · rw [hkj, hpj, keyAt_swapAt_left h i _ hi_len hj_len,
          keyAt_swapAt_right h i _ hj_len]
        exact Nat.le_of_lt hlt
      · by_cases hpki : (k - 1) / 2 = i
        · rw [hpki, keyAt_swapAt_left h i _ hi_len hj_len,
            keyAt_swapAt_other h i _ k hki hkj]
          have hk2 : k = 2 * i + 1 ∨ k = 2 * i + 2 := by omega
          rcases hk2 with hk2 | hk2
          · rw [hk2]
            exact pickChild_le_left h i n
          · rw [hk2]
            exact pickChild_le_right h i n (by omega)
        · rw [keyAt_swapAt_other h i _ _ hpki hpkj,
            keyAt_swapAt_other h i _ k hki hkj]
          exact h1 k hk h0k hpki
  · intro h0j c hck hpc
    rw [hpj]
    have hcj : c ≠ pickChild h i n := by omega
    have hci : c ≠ i := by omega
    rw [keyAt_swapAt_left h i _ hi_len hj_len,
      keyAt_swapAt_other h i _ c hci hcj]
    have hstep := h1 c hck (by omega) (by omega)
    rw [hpc] at hstep
    exact hstep

theorem down_heapInvTo : ∀ (d : Nat) (h : List ScheduleJob) (i n : Nat),
    n - i ≤ d → n ≤ h.length → downInv h i n →
    heapInvTo (down h i n) n := by
  intro d
  induction d with
  | zero =>
    intro h i n hd hn hinv
    rw [down, dif_neg (by omega)]
    intro k hk h0k
    exact hinv.1 k hk h0k (by omega)
  | succ d ihd =>
    intro h i n hd hn hinv
    rw [down]
    split
    · next hc =>
      show heapInvTo (if keyAt h (pickChild h i n) < keyAt h i
          then down (swapAt h i (pickChild h i n)) (pickChild h i n) n
          else h) n
      split
      · next hlt =>
        apply ihd (swapAt h i (pickChild h i n)) (pickChild h i n) n
        · have h1 := pickChild_gt h i n
          have h2 := pickChild_lt h i n hc
          omega
        · rw [length_swapAt]
          exact hn
        · exact downInv_swap h i n hn hc hinv hlt
      · next hnlt =>
        intro k hk h0k
        by_cases hpki : (k - 1) / 2 = i
        · rw [hpki]
          have hik : keyAt h i ≤ keyAt h (pickChild h i n) :=
            Nat.le_of_not_lt hnlt
          have hk2 : k = 2 * i + 1 ∨ k = 2 * i + 2 := by omega
          rcases hk2 with hk2 | hk2
          · rw [hk2]
            exact le_trans hik (pickChild_le_left h i n)
          · rw [hk2]
            exact le_trans hik (pickChild_le_right h i n (by omega))
        · exact hinv.1 k hk h0k hpki
    · next hc =>
      intro k hk h0k
      by_cases hpki : (k - 1) / 2 = i
      · exact absurd hk (by omega)
      · exact hinv.1 k hk h0k hpki

theorem down_entryAt_ge : ∀ (d : Nat) (h : List ScheduleJob) (i n k : Nat),
    n - i ≤ d → n ≤ k → entryAt (down h i n) k = entryAt h k := by
  intro d
  induction d with
  | zero =>
    intro h i n k hd hk
    rw [down, dif_neg (by omega)]
  | succ d ihd =>
    intro h i n k hd hk
    rw [down]
    split
    · next hc =>
      show entryAt (if keyAt h (pickChild h i n) < keyAt h i
          then down (swapAt h i (pickChild h i n)) (pickChild h i n) n
          else h) k = entryAt h k
      split
      · have hgt := pickChild_gt h i n
        have hlt' := pickChild_lt h i n hc
        rw [ihd (swapAt h i (pickChild h i n)) (pickChild h i n) n k
          (by omega) hk]
        exact entryAt_swapAt_other h i _ k (by omega) (by omega)
      · rfl
    · rfl

theorem downInv_swap_root_last (h : List ScheduleJob) (hinv : heapInv h) :
    downInv (swapAt h 0 (h.length - 1)) 0 (h.length - 1) := by
  constructor
  · intro k hk h0k hpk
    have hk1 : k < h.length := by omega
    have hkn : k ≠ h.length - 1 := by omega
    have hpnen : (k - 1) / 2 ≠ h.length - 1 := by omega
    rw [keyAt_swapAt_other h 0 _ _ hpk hpnen,
      keyAt_swapAt_other h 0 _ k (by omega) hkn]
    exact hinv k hk1 h0k
  · intro h00
    exact absurd h00 (lt_irrefl 0)

theorem heapPop_heapInv (h : List ScheduleJob) (hinv : heapInv h) :
    heapInv (heapPop h).2 := by
  have hlen2 : (down (swapAt h 0 (h.length - 1)) 0 (h.length - 1)).length
      = h.length := by
    rw [down_length (h.length - 1) 0 _ (h.length - 1) (by omega), length_swapAt]
  show heapInv
    ((down (swapAt h 0 (h.length - 1)) 0 (h.length - 1)).take (h.length - 1))
  have hito : heapInvTo (down (swapAt h 0 (h.length - 1)) 0 (h.length - 1))
      (h.length - 1) := by
    rcases Nat.eq_zero_or_pos h.length with h0 | hpos
    · intro k hk h0k
      exact absurd hk (by omega)
    · exact down_heapInvTo (h.length - 1) _ 0 (h.length - 1) (by omega)
        (by rw [length_swapAt]; omega) (downInv_swap_root_last h hinv)
  intro k hk h0k
  have hkn : k < h.length - 1 := by
    rw [List.length_take, hlen2] at hk
    omega
  have hpkn : (k - 1) / 2 < h.length - 1 := by omega
  rw [keyAt_take _ _ _ hpkn, keyAt_take _ _ _ hkn]
  exact hito k hkn h0k

theorem heapInvTo_root_le (h : List ScheduleJob) (n : Nat)
    (hinv : heapInvTo h n) : ∀ k, k < n → keyAt h 0 ≤ keyAt h k := by
  intro k
  induction k using Nat.strong_induction_on with
  | _ k ih =>
    intro hk
    rcases Nat.eq_zero_or_pos k with h0 | h0
    · rw [h0]
    · exact le_trans (ih ((k - 1) / 2) (by omega) (by omega)) (hinv k hk h0)

theorem heapInv_root_le_mem (h : List ScheduleJob) (hinv : heapInv h) :
    ∀ e ∈ h, keyAt h 0 ≤ e.scheduleTime := by
  intro e he
  obtain ⟨k, hk, hek⟩ := List.getElem_of_mem he
  have hkey : keyAt h k = e.scheduleTime := by
    rw [keyAt, entryAt_eq_getElem h k hk, hek]
  rw [← hkey]
  exact heapInvTo_root_le h h.length hinv k hk

theorem getD_set_cons_perm (x : ScheduleJob) :
    ∀ (t : List ScheduleJob) (k : Nat), k < t.length →
      ((t.getD k default :: t.set k x).Perm (x :: t)) := by
  intro t
  induction t with
  | nil =>
    intro k hk
    exact absurd hk (by simp)
  | cons y s ih =>
    intro k hk
    cases k with
    | zero =>
      simp only [List.getD_cons_zero, List.set_cons_zero]
      exact List.Perm.swap x y s
    | succ k =>
      simp only [List.getD_cons_succ, List.set_cons_succ]
      have h1 : (s.getD k default :: y :: s.set k x).Perm
          (y :: s.getD k default :: s.set k x) := List.Perm.swap _ _ _
      have h2 : (y :: s.getD k default :: s.set k x).Perm (y :: x :: s) :=
        (ih k (by simpa using hk)).cons y
      exact (h1.trans h2).trans (List.Perm.swap _ _ _)

theorem swapAt_perm : ∀ (h : List ScheduleJob) (i j : Nat), i < h.length →
    j < h.length → (swapAt h i j).Perm h := by
  intro h
  induction h with
  | nil =>
    intro i j hi hj
    exact absurd hi (by simp)
  | cons x t ih =>
    intro i j hi hj
    cases i with
    | zero =>
      cases j with
      | zero => simp [swapAt, entryAt]
      | succ j' =>
        have hj' : j' < t.length := by simpa using hj
        simp only [swapAt, entryAt, List.getD_cons_succ, List.getD_cons_zero,
          List.set_cons_zero, List.set_cons_succ]
        exact getD_set_cons_perm x t j' hj'
    | succ i' =>
      cases j with
      | zero =>
        have hi' : i' < t.length := by simpa using hi
        simp only [swapAt, entryAt, List.getD_cons_succ, List.getD_cons_zero,
          List.set_cons_succ, List.set_cons_zero]
        exact getD_set_cons_perm x t i' hi'
      | succ j' =>
        have hi' : i' < t.length := by simpa using hi
        have hj' : j' < t.length := by simpa using hj
        simp only [swapAt, entryAt, List.getD_cons_succ, List.set_cons_succ]
        exact (ih i' j' hi' hj').cons x

theorem up_perm : ∀ (j : Nat) (h : List ScheduleJob), j < h.length →
    (up h j).Perm h := by
  intro j
  induction j using Nat.strong_induction_on with
  | _ j ih =>
    intro h hj
    rw [up]
    split
    · exact List.Perm.refl h
    · next hj0 =>
      show (if keyAt h j < keyAt h ((j - 1) / 2)
          then up (swapAt h ((j - 1) / 2) j) ((j - 1) / 2) else h).Perm h
      split
      · exact List.Perm.trans
          (ih ((j - 1) / 2) (by omega) _ (by rw [length_swapAt]; omega))
          (swapAt_perm h _ j (by omega) hj)
      · exact List.Perm.refl h

theorem down_perm : ∀ (d : Nat) (h : List ScheduleJob) (i n : Nat),
    n - i ≤ d → n ≤ h.length → (down h i n).Perm h := by
  intro d
  induction d with
  | zero =>
    intro h i n hd hn
    rw [down, dif_neg (by omega)]
  | succ d ihd =>
    intro h i n hd hn
    rw [down]
    split
    · next hc =>
      show (if keyAt h (pickChild h i n) < keyAt h i
          then down (swapAt h i (pickChild h i n)) (pickChild h i n) n
          else h).Perm h
      split
      · have hgt := pickChild_gt h i n
        have hlt := pickChild_lt h i n hc
        exact List.Perm.trans
          (ihd _ (pickChild h i n) n (by omega)
            (by rw [length_swapAt]; exact hn))
          (swapAt_perm h i _ (by omega) (by omega))
      · exact List.Perm.refl h
    · exact List.Perm.refl h

theorem heapPush_perm (h : List ScheduleJob) (x : ScheduleJob) :
    (heapPush h x).Perm (x :: h) :=
  List.Perm.trans (up_perm h.length (h ++ [x]) (by simp))
    (List.perm_append_singleton x h)

theorem heapPop_fst (h : List ScheduleJob) (hpos : 0 < h.length) :
    (heapPop h).1 = entryAt h 0 := by
  show entryAt (down (swapAt h 0 (h.length - 1)) 0 (h.length - 1))
      (h.length - 1) = entryAt h 0
  rw [down_entryAt_ge (h.length - 1) (swapAt h 0 (h.length - 1)) 0
    (h.length - 1) (h.length - 1) (by omega) le_rfl]
  exact entryAt_swapAt_right h 0 (h.length - 1) (by omega)

theorem heapPop_perm (h : List ScheduleJob) (hpos : 0 < h.length) :
    ((heapPop h).1 :: (heapPop h).2).Perm h := by
  have hlen2 : (down (swapAt h 0 (h.length - 1)) 0 (h.length - 1)).length
      = h.length := by
    rw [down_length (h.length - 1) 0 _ (h.length - 1) (by omega), length_swapAt]
  show (entryAt (down (swapAt h 0 (h.length - 1)) 0 (h.length - 1))
        (h.length - 1)
      :: (down (swapAt h 0 (h.length - 1)) 0 (h.length - 1)).take
        (h.length - 1)).Perm h
  set h2 := down (swapAt h 0 (h.length - 1)) 0 (h.length - 1) with hh2
  have hn : h.length - 1 < h2.length := by rw [hlen2]; omega
  have hsplit : h2 = h2.take (h.length - 1) ++ [entryAt h2 (h.length - 1)] := by
    have h1 : h2.take (h.length - 1 + 1)
        = h2.take (h.length - 1) ++ (h2[h.length - 1]?).toList :=
      List.take_succ
    rw [List.getElem?_eq_getElem hn] at h1
    rw [← entryAt_eq_getElem h2 _ hn] at h1
    have h2full : h2.take (h.length - 1 + 1) = h2 :=
      List.take_of_length_le (by omega)
    rw [h2full] at h1
    simpa using h1
  have p0 : (entryAt h2 (h.length - 1) :: h2.take (h.length - 1)).Perm
      (h2.take (h.length - 1) ++ [entryAt h2 (h.length - 1)]) :=
    (List.perm_append_singleton _ _).symm
  have p1 : (entryAt h2 (h.length - 1) :: h2.take (h.length - 1)).Perm h2 :=
    p0.trans (List.Perm.of_eq hsplit.symm)
  have p2 : h2.Perm (swapAt h 0 (h.length - 1)) :=
    down_perm (h.length - 1) (swapAt h 0 (h.length - 1)) 0 (h.length - 1)
      (by omega) (by rw [length_swapAt]; omega)
  exact (p1.trans p2).trans (swapAt_perm h 0 (h.length - 1) hpos (by omega))

/-- C7: the `Scheduler` method stores exactly the entry whose
`ScheduleTime` is the call-time plus the delay (the heap after the call is
a permutation of the old heap plus that one entry), and every heap
reachable by `Scheduler` calls and poller iterations satisfies the binary
min-heap ordering, so the root the poller examines carries a minimal
`ScheduleTime`. -/
theorem schedule_stores_fireTime_and_heap_is_min_heap :
    (∀ (s : Scheduler) (j : Job) (delay now : Nat),
        ((s.schedule j delay now).heap).Perm
          ({ job := j, scheduleTime := now + delay } :: s.heap)) ∧
    (∀ s : Scheduler, Reach s →
        heapInv s.heap ∧ ∀ e ∈ s.heap, keyAt s.heap 0 ≤ e.scheduleTime) := by
  constructor
  · intro s j delay now
    exact heapPush_perm s.heap _
  · intro s hreach
    have hinv : heapInv s.heap := by
      induction hreach with
      | init q =>
        intro k hk h0k
        exact absurd hk (by simp [NewScheduler])
      | sched j delay now hr ih => exact heapPush_heapInv _ _ ih
      | tick now hr ih =>
        unfold Scheduler.pollerTick
        split
        · exact heapPop_heapInv _ ih
        · exact ih
    exact ⟨hinv, heapInv_root_le_mem _ hinv⟩

/-- C3 (amended): one poller iteration promotes at most one job: when the
heap is non-empty and the minimum `ScheduleTime` is strictly before `now`,
exactly the root — a minimal entry — is popped and its job enqueued;
otherwise, including when the minimum equals `now` exactly, the tick
changes nothing.  (The loop body uses `if`, not `while`, and
`time.Now().After`, which is strict.) -/
theorem poller_tick_pops_at_most_one (s : Scheduler) (now : Nat)
    (hinv : heapInv s.heap) :
    (0 < s.heap.length → keyAt s.heap 0 < now →
      (s.pollerTick now).heap.length + 1 = s.heap.length ∧
      (entryAt s.heap 0 :: (s.pollerTick now).heap).Perm s.heap ∧
      (∀ e ∈ s.heap, keyAt s.heap 0 ≤ e.scheduleTime) ∧
      heapInv (s.pollerTick now).heap ∧
      (s.pollerTick now).queue = s.queue.AddJob (entryAt s.heap 0).job) ∧
    (¬(0 < s.heap.length ∧ keyAt s.heap 0 < now) → s.pollerTick now = s) := by
  constructor
  · intro hpos hlt
    have htick : s.pollerTick now
        = { heap := (heapPop s.heap).2,
            queue := s.queue.AddJob (entryAt s.heap 0).job } := by
      unfold Scheduler.pollerTick
      rw [if_pos ⟨hpos, hlt⟩]
    rw [htick]
    refine ⟨?_, ?_, heapInv_root_le_mem _ hinv, heapPop_heapInv _ hinv, rfl⟩
    · have hlen := (heapPop_perm s.heap hpos).length_eq
      simpa using hlen
    · show ((entryAt s.heap 0) :: (heapPop s.heap).2).Perm s.heap
      rw [← heapPop_fst s.heap hpos]
      exact heapPop_perm s.heap hpos
  · intro hncond
    unfold Scheduler.pollerTick
    rw [if_neg hncond]

/-- C3, counterexample to the claim as stated: with two overdue entries
(fire times 0 and 1) a tick at time 5 leaves one entry behind — and it is
still overdue — so an overdue backlog is not drained within a single
tick; and an entry whose fire time equals the current instant (5 at time
5) is not promoted on that tick at all. -/
theorem poller_tick_leaves_overdue_cex :
    (twoOverdue.pollerTick 5).heap.length = 1 ∧
    (∀ e ∈ (twoOverdue.pollerTick 5).heap, e.scheduleTime < 5) ∧
    dueAtFive.pollerTick 5 = dueAtFive := by
  have hpos : 0 < twoOverdue.heap.length := by decide
  have htick : twoOverdue.pollerTick 5
      = { heap := (heapPop twoOverdue.heap).2,
          queue := twoOverdue.queue.AddJob (entryAt twoOverdue.heap 0).job } := by
    unfold Scheduler.pollerTick
    rw [if_pos (by decide)]
  refine ⟨?_, ?_, ?_⟩
  · rw [htick]
    show (heapPop twoOverdue.heap).2.length = 1
    have hlen := (heapPop_perm twoOverdue.heap hpos).length_eq
    simp only [List.length_cons] at hlen
    have h2 : twoOverdue.heap.length = 2 := rfl
    omega
  · rw [htick]
    intro e he
    have hmem : e ∈ twoOverdue.heap :=
      (heapPop_perm twoOverdue.heap hpos).mem_iff.mp
        (List.mem_cons_of_mem _ he)
    have he2 : e = { job := jobA, scheduleTime := 0 }
        ∨ e = { job := jobB, scheduleTime := 1 } := by
      simpa [twoOverdue] using hmem
    rcases he2 with h | h <;> rw [h] <;> decide
  · unfold Scheduler.pollerTick
    rw [if_neg (by decide)]

/-!  Witnesses: the hypothesis-bearing theorems above, instantiated at
concrete inputs.  -/

theorem enqueue_dequeue_priority_fifo_witness :
    (enqueueAll [jobB, jobC, jobA]).drain = [jobA, jobC, jobB] := by
  rw [enqueue_dequeue_priority_fifo [jobB, jobC, jobA] (by decide)]
  rfl

theorem always_failing_job_dies_witness :
    (retryLoopFail jobA).1 = 4 ∧ (retryLoopFail jobA).2.retryCount = 4 := by
  obtain ⟨h1, h2, -, -⟩ :=
    always_failing_job_dies NewQueue jobA rfl (by decide) (Or.inl rfl)
  constructor
  · rw [h1]
    rfl
  · rw [h2]
    rfl

theorem moveToDeadLetter_spec_witness :
    (NewQueue.MoveJobToDeadLetterQueue jobA).deadLane jobA.priority
      = NewQueue.deadLane jobA.priority ++ [jobA] :=
  (moveToDeadLetter_spec NewQueue jobA (Or.inl rfl)).2.1

theorem getJob_empty_signal_witness :
    ((NewQueue.GetJob).1 = none) ∧ (NewQueue.GetJob).2 = NewQueue := by
  have h := getJob_empty_signal NewQueue
  have h1 : (NewQueue.GetJob).1 = none := h.1.mpr ⟨rfl, rfl, rfl⟩
  exact ⟨h1, h.2.1 h1⟩

theorem removeJobFromQueue_not_found_noop_witness :
    (NewQueue.AddJob jobA).RemoveJobFromQueue { jobA with id := "zz" }
      = NewQueue.AddJob jobA :=
  removeJobFromQueue_not_found_noop _ _ (by decide)

theorem invalid_priority_dropped_witness :
    NewQueue.AddJob jobBad = NewQueue ∧
    NewQueue.MoveJobToDeadLetterQueue jobBad = NewQueue :=
  invalid_priority_dropped NewQueue jobBad (by decide) (by decide) (by decide)

theorem schedule_min_heap_witness :
    heapInv ((NewScheduler NewQueue).schedule jobA 5 0).heap :=
  ((schedule_stores_fireTime_and_heap_is_min_heap).2
    ((NewScheduler NewQueue).schedule jobA 5 0)
    (Reach.sched jobA 5 0 (Reach.init NewQueue))).1

theorem poller_tick_pops_at_most_one_witness :
    (dueAtFive.pollerTick 7).heap.length + 1 = dueAtFive.heap.length ∧
    (dueAtFive.pollerTick 7).queue
      = dueAtFive.queue.AddJob (entryAt dueAtFive.heap 0).job := by
  obtain ⟨h1, -⟩ := poller_tick_pops_at_most_one dueAtFive 7 (by decide)
  obtain ⟨ha, -, -, -, he⟩ := h1 (by decide) (by decide)
  exact ⟨ha, he⟩

end JobQueueGo
